import Mathlib

/-!
Verification of the option store and option-string parser of
src/cups/options.c (cupsAddOption, cupsGetOption, cupsParseOptions,
cupsRemoveOption).

Strings are modelled as lists of characters (a C string up to its NUL);
the option array together with its `num_options` count is modelled as a
`List Opt` plus a separate `Int` count, and a possibly-NULL pointer as
an `Option`.  The in-place splitting of the working copy of the
argument string is modelled by returning, at each scanning step, the
token read so far and the remaining suffix of the input.
-/

set_option maxHeartbeats 1000000

namespace CupsOptions

/-- Characters of a C string (no interior NUL). -/
abbrev Str := List Char

/-- One `cups_option_t` entry: (name, value). -/
abbrev Opt := Str × Str

/-- ASCII lowercasing, as the locale-independent lowering used by
`strcasecmp` in the C locale. -/
def lcase (c : Char) : Char :=
  if 'A' ≤ c ∧ c ≤ 'Z' then Char.ofNat (c.toNat + 32) else c

/-- `strcasecmp(a, b) == 0`. -/
def strCaseEq (a b : Str) : Bool :=
  a.map lcase == b.map lcase

/-- `isspace(c & 255)` in the C locale. -/
def cIsSpace (c : Char) : Bool :=
  c == ' ' || c == '\t' || c == '\n' || c == '\x0b' || c == '\x0c' || c == '\r'

/-- The linear scan of `cupsAddOption` (lines 62-64) and
`cupsRemoveOption` (lines 366-368): is some entry's name equal to
`name` case-insensitively?  (`strcasecmp` equality is symmetric, so one
orientation serves both call sites.) -/
def containsCase (name : Str) (arr : List Opt) : Bool :=
  arr.any fun e => strCaseEq e.1 name

/-- Match found in `cupsAddOption` (lines 86-95): the stored name is
kept and only the value of the first case-insensitive match is
replaced. -/
def replaceFirst (name value : Str) : List Opt → List Opt
  | [] => []
  | e :: rest =>
    if strCaseEq e.1 name then (e.1, value) :: rest
    else e :: replaceFirst name value rest

/-- Body of `cupsAddOption` once all three pointers are non-NULL
(lines 54-97).  `ok` tells whether the `malloc`/`realloc` growing the
array succeeds; on failure the C code returns 0 and leaves the array
untouched (lines 78-79).  The function reads exactly the first `n`
entries of the array. -/
def addBody (ok : Bool) (name value : Str) (n : Int) (opts : List Opt) :
    Int × List Opt :=
  if name = [] ∨ n < 0 then (n, opts)
  else
    let arr := opts.take n.toNat
    if containsCase name arr then (n, replaceFirst name value arr)
    else if ok then (n + 1, arr ++ [(name, value)])
    else (0, opts)

/-- `cupsAddOption` (src/cups/options.c, lines 44-98). -/
def cupsAddOption (ok : Bool) (name? value? : Option Str) (n : Int)
    (options? : Option (List Opt)) : Int × Option (List Opt) :=
  match name?, value?, options? with
  | some name, some value, some opts =>
    let r := addBody ok name value n opts
    (r.1, some r.2)
  | _, _, _ => (n, options?)

/-- `cupsGetOption` (lines 130-146). -/
def cupsGetOption (name? : Option Str) (n : Int)
    (options? : Option (List Opt)) : Option Str :=
  match name?, options? with
  | some name, some opts =>
    if n < 1 then none
    else
      match (opts.take n.toNat).find? (fun e => strCaseEq e.1 name) with
      | some e => some e.2
      | none => none
  | _, _ => none

/-- Removal of the first case-insensitive match, the later entries
shifted one slot earlier by the `memmove` (lines 370-384). -/
def removeFirst (name : Str) : List Opt → List Opt
  | [] => []
  | e :: rest =>
    if strCaseEq e.1 name then rest
    else e :: removeFirst name rest

/-- `cupsRemoveOption` (lines 345-391). -/
def cupsRemoveOption (name? : Option Str) (n : Int)
    (options? : Option (List Opt)) : Int × Option (List Opt) :=
  match name?, options? with
  | some name, some opts =>
    if n < 1 then (n, some opts)
    else
      let arr := opts.take n.toNat
      if containsCase name arr then (n - 1, some (removeFirst name arr))
      else (n, some opts)
  | _, _ => (n, options?)

/-- The character class of the name scan (line 209): neither
whitespace nor '='. -/
def nameChar (c : Char) : Bool :=
  !(cIsSpace c) && !(c == '=')

/-- Name scan of `cupsParseOptions` (lines 208-210): the name runs up
to a space, '=' or end of string; the rest of the input follows it. -/
def nameSpan (s : Str) : Str × Str :=
  (s.takeWhile nameChar, s.dropWhile nameChar)

/-- `strncasecmp(name, "no", 2) == 0` (line 232). -/
def isNoName : Str → Bool
  | c1 :: c2 :: _ => lcase c1 == 'n' && lcase c2 == 'o'
  | _ => false

/-- Scan of a quoted value (lines 256-262): stops at the closing quote
(left at the head of the returned remainder) or at end of string; a
backslash followed by a further character collapses to that character
(the `_cups_strcpy` shifting the rest of the buffer left), and the
scan continues after the collapsed character. -/
def quotedScan (q : Char) : Str → Str × Str
  | [] => ([], [])
  | c :: rest =>
    if c = q then ([], c :: rest)
    else if c = '\\' then
      match rest with
      | [] => ([c], [])
      | d :: rest2 =>
        let r := quotedScan q rest2
        (d :: r.1, r.2)
    else
      let r := quotedScan q rest
      (c :: r.1, r.2)

/-- Scan of a collection value (lines 273-295).  As in the C code the
scan starts on the opening brace itself with `depth = 1`, so the
opening brace is counted a second time.  On a '}' the depth is
decremented; when it reaches 0 the character after the '}' is
inspected: a ',' continues the scan (past the comma), anything else
stops it, the terminating `*ptr++ = '\0'` consuming that character. -/
def collScan (depth : Int) : Str → Str × Str
  | [] => ([], [])
  | c :: rest =>
    if c = '\x7b' then
      let r := collScan (depth + 1) rest
      (c :: r.1, r.2)
    else if c = '\x7d' then
      if depth - 1 = 0 then
        match rest with
        | [] => ([c], [])
        | d :: rest2 =>
          if d = ',' then
            let r := collScan 0 rest2
            (c :: d :: r.1, r.2)
          else ([c], rest2)
      else
        let r := collScan (depth - 1) rest
        (c :: r.1, r.2)
    else if c = '\\' then
      match rest with
      | [] => ([c], [])
      | d :: rest2 =>
        let r := collScan depth rest2
        (d :: r.1, r.2)
    else
      let r := collScan depth rest
      (c :: r.1, r.2)

/-- Scan of a bare, space-delimited value (lines 303-311), with the
same backslash collapsing. -/
def bareScan : Str → Str × Str
  | [] => ([], [])
  | c :: rest =>
    if cIsSpace c then ([], c :: rest)
    else if c = '\\' then
      match rest with
      | [] => ([c], [])
      | d :: rest2 =>
        let r := bareScan rest2
        (d :: r.1, r.2)
    else
      let r := bareScan rest
      (c :: r.1, r.2)

/-- Parsing of a value after the '=' (lines 247-312): quoted,
collection, or bare, including the `*ptr++ = '\0'` that consumes a
closing quote. -/
def parseValue : Str → Str × Str
  | [] => ([], [])
  | c :: rest =>
    if c = '\'' ∨ c = '"' then
      let r := quotedScan c rest
      (r.1, r.2.tail)
    else if c = '\x7b' then collScan 1 (c :: rest)
    else bareScan (c :: rest)

/-- One iteration of the parse loop (lines 202-326): name scan, the
empty-name check, skipping of the whitespace after the name, the
boolean shorthand, and the value branch.  Returns the pair to add and
the remaining input (with trailing whitespace skipped), or `none` when
parsing stops. -/
def nextPair (s : Str) : Option ((Str × Str) × Str) :=
  let p := nameSpan s
  let rest2 := p.2.dropWhile cIsSpace
  if p.1 = [] then none
  else if rest2.head? = some '=' then
    let v := parseValue rest2.tail
    some ((p.1, v.1), v.2.dropWhile cIsSpace)
  else if isNoName p.1 then
    some ((p.1.drop 2, "false".toList), rest2)
  else
    some ((p.1, "true".toList), rest2)

/-- The parse loop with explicit fuel, one unit per iteration.  Each
iteration consumes at least one character (`nextPair_rest_lt`), so
`s.length + 1` units are enough (`parseLoopF_congr`). -/
def parseLoopF : Nat → Str → Int → List Opt → Int × List Opt
  | 0, _, n, opts => (n, opts)
  | fuel + 1, s, n, opts =>
    match nextPair s with
    | none => (n, opts)
    | some t =>
      let r := addBody true t.1.1 t.1.2 n opts
      parseLoopF fuel t.2 r.1 r.2

/-- The parse loop of `cupsParseOptions` after the leading whitespace
has been skipped. -/
def parseLoop (s : Str) (n : Int) (opts : List Opt) : Int × List Opt :=
  parseLoopF (s.length + 1) s n opts

/-- `cupsParseOptions` (lines 159-336); the `strdup` of the argument
is modelled as succeeding. -/
def cupsParseOptions (arg? : Option Str) (n : Int)
    (options? : Option (List Opt)) : Int × Option (List Opt) :=
  match arg? with
  | none => (n, options?)
  | some arg =>
    match options? with
    | none => (0, none)
    | some opts =>
      if n < 0 then (0, some opts)
      else
        let r := parseLoop (arg.dropWhile cIsSpace) n opts
        (r.1, some r.2)

/-- `cupsAddOption` acting on a (count, array) state with a valid
store pointer. -/
def addCall (ok : Bool) (name? value? : Option Str) (s : Int × List Opt) :
    Int × List Opt :=
  let r := cupsAddOption ok name? value? s.1 (some s.2)
  (r.1, r.2.getD s.2)

/-- `cupsRemoveOption` acting on a (count, array) state. -/
def removeCall (name? : Option Str) (s : Int × List Opt) : Int × List Opt :=
  let r := cupsRemoveOption name? s.1 (some s.2)
  (r.1, r.2.getD s.2)

/-- `cupsParseOptions` acting on a (count, array) state. -/
def parseCall (arg? : Option Str) (s : Int × List Opt) : Int × List Opt :=
  let r := cupsParseOptions arg? s.1 (some s.2)
  (r.1, r.2.getD s.2)

/-- The (count, array) states reachable from the empty store through
the three mutating operations. -/
inductive Reach : Int × List Opt → Prop where
  | empty : Reach (0, [])
  | add (ok : Bool) (name? value? : Option Str) {s : Int × List Opt}
      (h : Reach s) : Reach (addCall ok name? value? s)
  | remove (name? : Option Str) {s : Int × List Opt}
      (h : Reach s) : Reach (removeCall name? s)
  | parse (arg? : Option Str) {s : Int × List Opt}
      (h : Reach s) : Reach (parseCall arg? s)

/-- Pairwise case-insensitive distinctness of the stored names. -/
def NamesDistinct (l : List Opt) : Prop :=
  l.Pairwise fun a b => strCaseEq a.1 b.1 = false

/-- Spec-side description of escape collapsing: every backslash
immediately followed by a character collapses to that character. -/
def collapse : Str → Str
  | [] => []
  | c :: rest =>
    if c = '\\' then
      match rest with
      | [] => [c]
      | d :: rest2 => d :: collapse rest2
    else c :: collapse rest

/-- The quoted-value scan of `q :: body` never meets an unescaped `q`
before the end of the input (the "unterminated quote" situation). -/
def noCloseQuote (q : Char) : Str → Bool
  | [] => true
  | c :: rest =>
    if c = q then false
    else if c = '\\' then
      match rest with
      | [] => true
      | _ :: rest2 => noCloseQuote q rest2
    else noCloseQuote q rest

/-- `body` is a well-formed quoted-value body for quote `q`: the scan
meets no unescaped `q` inside it and it does not end with a dangling
backslash (which would escape the closing quote). -/
def cleanBody (q : Char) : Str → Bool
  | [] => true
  | c :: rest =>
    if c = q then false
    else if c = '\\' then
      match rest with
      | [] => false
      | _ :: rest2 => cleanBody q rest2
    else cleanBody q rest

/-- Dropping a whitespace run does not lengthen a string. -/
theorem length_dropWhile_le (p : Char → Bool) (l : Str) :
    (l.dropWhile p).length ≤ l.length := by
  have h := congrArg List.length (List.takeWhile_append_dropWhile p l)
  rw [List.length_append] at h
  omega

/-- The quoted-value scan only consumes input. -/
theorem quotedScan_rest_length (q : Char) :
    ∀ s : Str, (quotedScan q s).2.length ≤ s.length
  | [] => by simp [quotedScan]
  | [c] => by
    by_cases h1 : c = q
    · simp [quotedScan, h1]
    · by_cases h2 : c = '\\'
      · subst h2
        simp [quotedScan, h1]
      · simp [quotedScan, h1, h2]
  | c :: d :: rest => by
    by_cases h1 : c = q
    · simp [quotedScan, h1]
    · by_cases h2 : c = '\\'
      · subst h2
        have ih := quotedScan_rest_length q rest
        simp [quotedScan, h1]
        omega
      · have ih := quotedScan_rest_length q (d :: rest)
        simp [quotedScan, h1, h2]
        simp at ih
        omega

/-- The collection-value scan only consumes input. -/
theorem collScan_rest_length :
    ∀ (depth : Int) (s : Str), (collScan depth s).2.length ≤ s.length
  | _, [] => by simp [collScan]
  | depth, [c] => by
    by_cases h1 : c = '\x7b'
    · simp [collScan, h1]
    · by_cases h2 : c = '\x7d'
      · by_cases h3 : depth - 1 = 0 <;> simp [collScan, h1, h2, h3]
      · by_cases h4 : c = '\\' <;> simp [collScan, h1, h2, h4]
  | depth, c :: d :: rest => by
    by_cases h1 : c = '\x7b'
    · have ih := collScan_rest_length (depth + 1) (d :: rest)
      simp [collScan, h1]
      simp at ih
      omega
    · by_cases h2 : c = '\x7d'
      · by_cases h3 : depth - 1 = 0
        · by_cases h4 : d = ','
          · have ih := collScan_rest_length 0 rest
            simp [collScan, h1, h2, h3, h4]
            omega
          · simp [collScan, h1, h2, h3, h4]
            omega
        · have ih := collScan_rest_length (depth - 1) (d :: rest)
          simp [collScan, h1, h2, h3]
          simp at ih
          omega
      · by_cases h4 : c = '\\'
        · subst h4
          have ih := collScan_rest_length depth rest
          simp [collScan, h1, h2]
          omega
        · have ih := collScan_rest_length depth (d :: rest)
          simp [collScan, h1, h2, h4]
          simp at ih
          omega

/-- The bare-value scan only consumes input. -/
theorem bareScan_rest_length : ∀ s : Str, (bareScan s).2.length ≤ s.length
  | [] => by simp [bareScan]
  | [c] => by
    by_cases h1 : cIsSpace c
    · simp [bareScan, h1]
    · by_cases h2 : c = '\\'
      · subst h2
        simp [bareScan, h1]
      · simp [bareScan, h1, h2]
  | c :: d :: rest => by
    by_cases h1 : cIsSpace c
    · simp [bareScan, h1]
    · by_cases h2 : c = '\\'
      · subst h2
        have ih := bareScan_rest_length rest
        simp [bareScan, h1]
        omega
      · have ih := bareScan_rest_length (d :: rest)
        simp [bareScan, h1, h2]
        simp at ih
        omega

/-- Value parsing only consumes input. -/
theorem parseValue_rest_length : ∀ s : Str, (parseValue s).2.length ≤ s.length
  | [] => by simp [parseValue]
  | c :: rest => by
    by_cases h1 : c = '\'' ∨ c = '"'
    · have hq := quotedScan_rest_length c rest
      have ht : (quotedScan c rest).2.tail.length ≤ (quotedScan c rest).2.length := by
        cases (quotedScan c rest).2 <;> simp
      simp only [parseValue, if_pos h1]
      simp
      omega
    · by_cases h2 : c = '\x7b'
      · have hc := collScan_rest_length 1 (c :: rest)
        simp only [parseValue, if_neg h1, if_pos h2]
        exact hc
      · have hb := bareScan_rest_length (c :: rest)
        simp only [parseValue, if_neg h1, if_neg h2]
        exact hb

/-- The two halves of the name scan reassemble the input. -/
theorem nameSpan_append (s : Str) : (nameSpan s).1 ++ (nameSpan s).2 = s :=
  List.takeWhile_append_dropWhile _ _

/-- Each loop iteration strictly consumes input. -/
theorem nextPair_rest_lt {s : Str} {t : (Str × Str) × Str}
    (h : nextPair s = some t) : t.2.length < s.length := by
  simp only [nextPair] at h
  have hlen : (nameSpan s).1.length + (nameSpan s).2.length = s.length := by
    rw [← List.length_append, nameSpan_append]
  have hd2 : ((nameSpan s).2.dropWhile cIsSpace).length ≤ (nameSpan s).2.length :=
    length_dropWhile_le _ _
  split at h
  · exact absurd h (by simp)
  · rename_i hne
    have hpos : 0 < (nameSpan s).1.length :=
      List.length_pos.mpr hne
    split at h
    · rename_i heq
      injection h with h2
      subst h2
      have hne2 : ((nameSpan s).2.dropWhile cIsSpace) ≠ [] := by
        intro hh
        rw [hh] at heq
        simp at heq
      have htl : ((nameSpan s).2.dropWhile cIsSpace).tail.length + 1 =
          ((nameSpan s).2.dropWhile cIsSpace).length := by
        cases hcc : ((nameSpan s).2.dropWhile cIsSpace) with
        | nil => exact absurd hcc hne2
        | cons a l => simp
      have hpv := parseValue_rest_length ((nameSpan s).2.dropWhile cIsSpace).tail
      have hd3 := length_dropWhile_le cIsSpace
        (parseValue ((nameSpan s).2.dropWhile cIsSpace).tail).2
      simp only []
      omega
    · split at h <;> injection h with h2 <;> subst h2 <;> simp only [] <;> omega

/-- The fuel in `parseLoopF` is irrelevant once it exceeds the length
of the input. -/
theorem parseLoopF_congr : ∀ (f1 f2 : Nat) (s : Str) (n : Int) (opts : List Opt),
    s.length < f1 → s.length < f2 →
    parseLoopF f1 s n opts = parseLoopF f2 s n opts
  | 0, _, _, _, _, h1, _ => absurd h1 (by omega)
  | _ + 1, 0, _, _, _, _, h2 => absurd h2 (by omega)
  | f1 + 1, f2 + 1, s, n, opts, h1, h2 => by
    simp only [parseLoopF]
    cases ht : nextPair s with
    | none => rfl
    | some t =>
      have hlt := nextPair_rest_lt ht
      dsimp only
      exact parseLoopF_congr f1 f2 t.2 _ _ (by omega) (by omega)

/-- Unfolding equation of the parse loop. -/
theorem parseLoop_step (s : Str) (n : Int) (opts : List Opt) :
    parseLoop s n opts =
      match nextPair s with
      | none => (n, opts)
      | some t =>
        parseLoop t.2 (addBody true t.1.1 t.1.2 n opts).1
          (addBody true t.1.1 t.1.2 n opts).2 := by
  unfold parseLoop
  rw [parseLoopF]
  cases ht : nextPair s with
  | none => rfl
  | some t =>
    have hlt := nextPair_rest_lt ht
    dsimp only
    exact parseLoopF_congr _ _ _ _ _ (by omega) (by omega)

/-- The parse loop stops on empty input. -/
theorem parseLoop_nil (n : Int) (opts : List Opt) : parseLoop [] n opts = (n, opts) := by
  rw [parseLoop_step]
  rfl

/-- Distinctness of names only depends on the name column. -/
theorem namesDistinct_of_map {l1 l2 : List Opt}
    (hm : l1.map Prod.fst = l2.map Prod.fst) (h : NamesDistinct l2) :
    NamesDistinct l1 := by
  have h2 : List.Pairwise (fun a b : Str => strCaseEq a b = false) (l2.map Prod.fst) :=
    List.pairwise_map.mpr h
  rw [← hm] at h2
  exact List.pairwise_map.mp h2

/-- Replacing a value does not change the stored names. -/
theorem map_fst_replaceFirst (name value : Str) :
    ∀ l : List Opt, (replaceFirst name value l).map Prod.fst = l.map Prod.fst
  | [] => rfl
  | e :: rest => by
    by_cases h : strCaseEq e.1 name = true
    · simp [replaceFirst, h]
    · simp [replaceFirst, h, map_fst_replaceFirst name value rest]

/-- A truncated store keeps distinct names. -/
theorem namesDistinct_take (k : Nat) {l : List Opt} (h : NamesDistinct l) :
    NamesDistinct (l.take k) :=
  List.Pairwise.sublist (List.take_sublist k l) h

/-- Removal yields a sublist of the store. -/
theorem removeFirst_sublist (name : Str) :
    ∀ l : List Opt, (removeFirst name l).Sublist l
  | [] => List.Sublist.refl _
  | e :: rest => by
    by_cases h : strCaseEq e.1 name = true
    · simp only [removeFirst]
      rw [if_pos h]
      exact List.sublist_cons_self e rest
    · simp only [removeFirst]
      rw [if_neg h]
      exact List.Sublist.cons₂ e (removeFirst_sublist name rest)

/-- When the scan fails, no entry matches the name. -/
theorem containsCase_false_all {name : Str} {l : List Opt}
    (h : containsCase name l = false) : ∀ e ∈ l, strCaseEq e.1 name = false := by
  intro e he
  unfold containsCase at h
  rw [List.any_eq_false] at h
  simpa using h e he

/-- Appending an absent name keeps names distinct. -/
theorem namesDistinct_append_new {l : List Opt} {name : Str} (value : Str)
    (hc : containsCase name l = false) (h : NamesDistinct l) :
    NamesDistinct (l ++ [(name, value)]) := by
  unfold NamesDistinct at *
  rw [List.pairwise_append]
  refine ⟨h, List.pairwise_singleton _ _, ?_⟩
  intro a ha b hb
  have hb2 : b = (name, value) := by simpa using hb
  subst hb2
  exact containsCase_false_all hc a ha

/-- `cupsAddOption`'s body preserves distinctness of names. -/
theorem namesDistinct_addBody (ok : Bool) (name value : Str) (n : Int)
    {opts : List Opt} (h : NamesDistinct opts) :
    NamesDistinct (addBody ok name value n opts).2 := by
  unfold addBody
  by_cases hg : name = [] ∨ n < 0
  · rw [if_pos hg]
    exact h
  · rw [if_neg hg]
    have ht : NamesDistinct (opts.take n.toNat) := namesDistinct_take _ h
    dsimp only
    by_cases hc : containsCase name (opts.take n.toNat) = true
    · rw [if_pos hc]
      exact namesDistinct_of_map (map_fst_replaceFirst name value _) ht
    · rw [if_neg hc]
      have hc2 : containsCase name (opts.take n.toNat) = false := by
        simpa using hc
      by_cases hok : ok = true
      · rw [if_pos hok]
        exact namesDistinct_append_new value hc2 ht
      · rw [if_neg hok]
        exact h

/-- The parse loop preserves distinctness of names. -/
theorem namesDistinct_parseLoopF :
    ∀ (fuel : Nat) (s : Str) (n : Int) {opts : List Opt},
      NamesDistinct opts → NamesDistinct (parseLoopF fuel s n opts).2
  | 0, _, _, _, h => h
  | fuel + 1, s, n, opts, h => by
    simp only [parseLoopF]
    cases ht : nextPair s with
    | none => exact h
    | some t =>
      dsimp only
      exact namesDistinct_parseLoopF fuel t.2 _
        (namesDistinct_addBody true t.1.1 t.1.2 n h)

/-- Every reachable store has pairwise case-insensitively distinct
names. -/
theorem reach_namesDistinct : ∀ {s : Int × List Opt}, Reach s → NamesDistinct s.2 := by
  intro s h
  induction h with
  | empty => exact List.Pairwise.nil
  | add ok name? value? hr ih =>
    rename_i s0
    cases name? with
    | none => cases value? <;> simpa [addCall, cupsAddOption] using ih
    | some nm =>
      cases value? with
      | none => simpa [addCall, cupsAddOption] using ih
      | some v =>
        simpa [addCall, cupsAddOption] using
          namesDistinct_addBody ok nm v s0.1 ih
  | remove name? hr ih =>
    rename_i s0
    cases name? with
    | none => simpa [removeCall, cupsRemoveOption] using ih
    | some nm =>
      simp only [removeCall, cupsRemoveOption]
      by_cases hg : s0.1 < 1
      · rw [if_pos hg]
        simpa using ih
      · rw [if_neg hg]
        by_cases hc : containsCase nm (s0.2.take s0.1.toNat) = true
        · rw [if_pos hc]
          simpa using List.Pairwise.sublist
            ((removeFirst_sublist nm _).trans (List.take_sublist _ _)) ih
        · rw [if_neg hc]
          simpa using ih
  | parse arg? hr ih =>
    rename_i s0
    cases arg? with
    | none => simpa [parseCall, cupsParseOptions] using ih
    | some a =>
      simp only [parseCall, cupsParseOptions]
      by_cases hneg : s0.1 < 0
      · rw [if_pos hneg]
        simpa using ih
      · rw [if_neg hneg]
        simpa using namesDistinct_parseLoopF _ _ _ ih

/-- Removing a present name deletes exactly the first match and keeps
the order of the remaining entries. -/
theorem removeFirst_append {name : Str} (e : Opt) (post : List Opt)
    (he : strCaseEq e.1 name = true) :
    ∀ pre : List Opt, (∀ x ∈ pre, strCaseEq x.1 name = false) →
      removeFirst name (pre ++ e :: post) = pre ++ post
  | [], _ => by
    simp only [List.nil_append, removeFirst]
    rw [if_pos he]
  | x :: pre, hp => by
    have hx : strCaseEq x.1 name = false := hp x (by simp)
    simp only [List.cons_append, removeFirst]
    rw [if_neg (by simp [hx])]
    exact congrArg (List.cons x)
      (removeFirst_append e post he pre (fun y hy => hp y (by simp [hy])))

/-- A matching member makes the scan succeed. -/
theorem containsCase_of_mem {name : Str} {l : List Opt} (e : Opt) (he : e ∈ l)
    (hq : strCaseEq e.1 name = true) : containsCase name l = true := by
  unfold containsCase
  rw [List.any_eq_true]
  exact ⟨e, he, hq⟩

/-- Computation of the quoted-value scan at the closing quote. -/
theorem quotedScan_self (q : Char) (tail : Str) :
    quotedScan q (q :: tail) = ([], q :: tail) := by
  rw [quotedScan.eq_def]
  dsimp only
  rw [if_pos rfl]

/-- A quoted-value scan over a clean body stops exactly at the closing
quote, the body collapsed. -/
theorem quotedScan_clean (q : Char) (tail : Str) :
    ∀ body : Str, cleanBody q body = true →
      quotedScan q (body ++ q :: tail) = (collapse body, q :: tail)
  | [], _ => by
    rw [List.nil_append, quotedScan_self]
    rfl
  | [c], h => by
    by_cases h1 : c = q
    · subst h1
      simp [cleanBody] at h
    · by_cases h2 : c = '\\'
      · subst h2
        simp [cleanBody, h1] at h
      · simp [quotedScan, collapse, h1, h2, quotedScan_self]
  | c :: d :: body2, h => by
    by_cases h1 : c = q
    · subst h1
      simp [cleanBody] at h
    · by_cases h2 : c = '\\'
      · subst h2
        have h3 : cleanBody q body2 = true := by
          simpa [cleanBody, h1] using h
        simp [quotedScan, collapse, h1, quotedScan_clean q tail body2 h3]
      · have h3 : cleanBody q (d :: body2) = true := by
          simpa [cleanBody, h1, h2] using h
        have ih : quotedScan q (d :: (body2 ++ q :: tail)) =
            (collapse (d :: body2), q :: tail) := by
          simpa using quotedScan_clean q tail (d :: body2) h3
        simp [quotedScan, collapse, h1, h2, ih]

/-- C1 (code-bug evidence): on the input "a=\x7bx=1\x7d b=2" the
collection scan of cupsParseOptions double-counts the opening brace
(the loop starts on the brace with depth already 1), so the depth
never returns to 0 at the matching brace and the stored value runs to
the end of the input; no pair (b, 2) is parsed, contradicting the
claim that the value ends at the matching closing brace. -/
theorem collection_value_overrun :
    cupsParseOptions (some ("a=\x7bx=1\x7d b=2".toList)) 0 (some []) =
      (1, some [("a".toList, "\x7bx=1\x7d b=2".toList)]) := by
  decide

/-- C2 counterexample: cupsParseOptions with an absent store pointer
returns 0, not the unmodified incoming count 5, refuting the claim
that every mutating operation returns the unmodified count on invalid
arguments. -/
theorem parse_invalid_count_cex :
    (cupsParseOptions (some ['x']) 5 none).1 ≠ 5 := by
  decide

/-- C2 (corrected): cupsAddOption and cupsRemoveOption return the
unmodified count and leave the store untouched when a pointer argument
is absent or the count is negative; cupsParseOptions does so only when
the argument string is absent — with an absent store pointer or a
negative incoming count it returns 0 (store untouched). -/
theorem mutating_guard_noop :
    (∀ (ok : Bool) (value? : Option Str) (n : Int) (options? : Option (List Opt)),
        cupsAddOption ok none value? n options? = (n, options?)) ∧
    (∀ (ok : Bool) (name? : Option Str) (n : Int) (options? : Option (List Opt)),
        cupsAddOption ok name? none n options? = (n, options?)) ∧
    (∀ (ok : Bool) (name? value? : Option Str) (n : Int),
        cupsAddOption ok name? value? n none = (n, none)) ∧
    (∀ (ok : Bool) (name value : Str) (n : Int) (opts : List Opt), n < 0 →
        cupsAddOption ok (some name) (some value) n (some opts) = (n, some opts)) ∧
    (∀ (n : Int) (options? : Option (List Opt)),
        cupsRemoveOption none n options? = (n, options?)) ∧
    (∀ (name? : Option Str) (n : Int),
        cupsRemoveOption name? n none = (n, none)) ∧
    (∀ (name : Str) (n : Int) (opts : List Opt), n < 0 →
        cupsRemoveOption (some name) n (some opts) = (n, some opts)) ∧
    (∀ (n : Int) (options? : Option (List Opt)),
        cupsParseOptions none n options? = (n, options?)) ∧
    (∀ (arg : Str) (n : Int), cupsParseOptions (some arg) n none = (0, none)) ∧
    (∀ (arg : Str) (n : Int) (opts : List Opt), n < 0 →
        cupsParseOptions (some arg) n (some opts) = (0, some opts)) := by
  refine ⟨?_, ?_, ?_, ?_, ?_, ?_, ?_, ?_, ?_, ?_⟩
  · intro ok value? n options?
    cases value? <;> cases options? <;> rfl
  · intro ok name? n options?
    cases name? <;> cases options? <;> rfl
  · intro ok name? value? n
    cases name? <;> cases value? <;> rfl
  · intro ok name value n opts h
    simp only [cupsAddOption, addBody]
    rw [if_pos (Or.inr h)]
  · intro n options?
    cases options? <;> rfl
  · intro name? n
    cases name? <;> rfl
  · intro name n opts h
    simp only [cupsRemoveOption]
    rw [if_pos (by omega)]
  · intro n options?
    rfl
  · intro arg n
    rfl
  · intro arg n opts h
    simp only [cupsParseOptions]
    rw [if_pos h]

/-- C2 witness: concrete instances of the guard behaviour, including
the negative-count cases. -/
theorem mutating_guard_noop_w :
    cupsAddOption true (some ['a']) (some ['1']) (-1) (some []) = (-1, some []) ∧
    cupsRemoveOption (some ['a']) (-1) (some [(['a'], ['1'])]) =
      (-1, some [(['a'], ['1'])]) ∧
    cupsParseOptions (some ['x']) (-2) (some []) = (0, some []) :=
  ⟨mutating_guard_noop.2.2.2.1 true ['a'] ['1'] (-1) [] (by decide),
   mutating_guard_noop.2.2.2.2.2.2.1 ['a'] (-1) [(['a'], ['1'])] (by decide),
   mutating_guard_noop.2.2.2.2.2.2.2.2.2 ['x'] (-2) [] (by decide)⟩

/-- C3: every store reachable from the empty store through the
mutating operations keeps pairwise case-insensitively distinct entry
names; adding an already-present name replaces that entry's value in
place: add("a","1") then add("a","2") leaves exactly one entry
("a","2") with count 1. -/
theorem store_names_unique :
    (∀ s : Int × List Opt, Reach s → NamesDistinct s.2) ∧
    addCall true (some "a".toList) (some "2".toList)
        (addCall true (some "a".toList) (some "1".toList) (0, [])) =
      (1, [("a".toList, "2".toList)]) :=
  ⟨fun _ h => reach_namesDistinct h, by decide⟩

/-- C3 witness: the invariant evaluated on a concrete reachable
store. -/
theorem store_names_unique_w :
    NamesDistinct (addCall true (some "a".toList) (some "1".toList) (0, [])).2 :=
  store_names_unique.1 _ (Reach.add true _ _ Reach.empty)

/-- C5 counterexample: with incoming count 1 and a failing growth
allocation, cupsAddOption returns 0, not the pre-growth count 1,
refuting the claim that the operation returns the original count. -/
theorem addOption_allocFail_cex :
    (cupsAddOption false (some ['b']) (some ['2']) 1 (some [(['a'], ['1'])])).1 ≠ 1 := by
  decide

/-- C5 (corrected): when cupsAddOption needs to grow the store and the
allocation of the grown storage fails, the store is left untouched and
the returned count is 0 — which equals the pre-growth count only when
the incoming count was 0. -/
theorem addOption_allocFail_returns_zero (name value : Str) (n : Int)
    (opts : List Opt) (hname : ¬ name = []) (hn : ¬ n < 0)
    (hc : containsCase name (opts.take n.toNat) = false) :
    cupsAddOption false (some name) (some value) n (some opts) = (0, some opts) := by
  simp only [cupsAddOption, addBody]
  rw [if_neg (by tauto)]
  rw [if_neg (by simp [hc])]
  rfl

/-- C5 witness: the allocation-failure path evaluated at count 1. -/
theorem addOption_allocFail_returns_zero_w :
    cupsAddOption false (some ['b']) (some ['2']) 1 (some [(['a'], ['1'])]) =
      (0, some [(['a'], ['1'])]) :=
  addOption_allocFail_returns_zero ['b'] ['2'] 1 [(['a'], ['1'])]
    (by decide) (by decide) (by decide)

/-- C7: cupsRemoveOption scans case-insensitively; when the name is
found it removes that entry, shifts all later entries one slot earlier
preserving their order, and returns the decremented count; when the
name is absent from the scanned entries, the store is empty, or the
inputs are invalid, it returns the input count with the store
untouched. -/
theorem removeOption_behaviour :
    (∀ (name : Str) (pre : List Opt) (e : Opt) (post : List Opt),
        (∀ x ∈ pre, strCaseEq x.1 name = false) → strCaseEq e.1 name = true →
        cupsRemoveOption (some name) ((pre ++ e :: post).length : Int)
            (some (pre ++ e :: post)) =
          (((pre ++ e :: post).length : Int) - 1, some (pre ++ post))) ∧
    (∀ (name : Str) (n : Int) (opts : List Opt),
        containsCase name (opts.take n.toNat) = false →
        cupsRemoveOption (some name) n (some opts) = (n, some opts)) ∧
    (∀ (n : Int) (options? : Option (List Opt)),
        cupsRemoveOption none n options? = (n, options?)) ∧
    (∀ (name? : Option Str) (n : Int),
        cupsRemoveOption name? n none = (n, none)) := by
  refine ⟨?_, ?_, ?_, ?_⟩
  · intro name pre e post hp he
    have hL : 1 ≤ (pre ++ e :: post).length := by
      simp
      omega
    simp only [cupsRemoveOption]
    rw [if_neg (by omega)]
    have htake : (pre ++ e :: post).take (((pre ++ e :: post).length : Int)).toNat =
        pre ++ e :: post := by
      rw [Int.toNat_natCast, List.take_length]
    rw [htake]
    rw [if_pos (containsCase_of_mem e (by simp) he)]
    rw [removeFirst_append e post he pre hp]
  · intro name n opts hc
    simp only [cupsRemoveOption]
    by_cases hg : n < 1
    · rw [if_pos hg]
    · rw [if_neg hg]
      rw [if_neg (by simp [hc])]
  · intro n options?
    cases options? <;> rfl
  · intro name? n
    cases name? <;> rfl

/-- C7 witness: adding "a","b","c" then removing "b" leaves ["a","c"]
in order, with the count decremented from 3 to 2. -/
theorem removeOption_behaviour_w :
    cupsRemoveOption (some "b".toList) 3
        (some [("a".toList, "1".toList), ("b".toList, "2".toList),
          ("c".toList, "3".toList)]) =
      (2, some [("a".toList, "1".toList), ("c".toList, "3".toList)]) :=
  removeOption_behaviour.1 "b".toList [("a".toList, "1".toList)]
    ("b".toList, "2".toList) [("c".toList, "3".toList)] (by decide) (by decide)

/-- A quoted-value scan that never meets its closing quote collapses
the whole input and leaves nothing. -/
theorem quotedScan_noClose (q : Char) :
    ∀ s : Str, noCloseQuote q s = true → quotedScan q s = (collapse s, [])
  | [], _ => by simp [quotedScan, collapse]
  | [c], h => by
    by_cases h1 : c = q
    · subst h1
      simp [noCloseQuote] at h
    · by_cases h2 : c = '\\'
      · subst h2
        simp [quotedScan, collapse, h1]
      · simp [quotedScan, collapse, h1, h2]
  | c :: d :: rest, h => by
    by_cases h1 : c = q
    · subst h1
      simp [noCloseQuote] at h
    · by_cases h2 : c = '\\'
      · subst h2
        have h3 : noCloseQuote q rest = true := by
          simpa [noCloseQuote, h1] using h
        simp [quotedScan, collapse, h1, quotedScan_noClose q rest h3]
      · have h3 : noCloseQuote q (d :: rest) = true := by
          simpa [noCloseQuote, h1, h2] using h
        simp [quotedScan, collapse, h1, h2, quotedScan_noClose q (d :: rest) h3]

/-- A token whose pair has an empty name is rejected by
`cupsAddOption`, and with no further input the loop then stops. -/
theorem parseLoop_noop_token {s v : Str} (h : nextPair s = some (([], v), []))
    (n : Int) (opts : List Opt) : parseLoop s n opts = (n, opts) := by
  rw [parseLoop_step, h]
  dsimp only
  have ha : addBody true [] v n opts = (n, opts) := by
    simp [addBody]
  rw [ha]
  exact parseLoop_nil n opts

/-- C9: when the name scan consumes zero characters (for instance the
cursor sits on a leading '=' delimiter) parsing stops entirely,
returning only the pairs added so far, with no error; parsing
"a=1 =x b=2" adds only the pair (a,"1"). -/
theorem empty_name_truncates :
    (∀ (s : Str) (n : Int) (opts : List Opt), (nameSpan s).1 = [] →
        parseLoop s n opts = (n, opts)) ∧
    cupsParseOptions (some ("a=1 =x b=2".toList)) 0 (some []) =
      (1, some [("a".toList, "1".toList)]) := by
  constructor
  · intro s n opts h
    rw [parseLoop_step]
    have hn : nextPair s = none := by
      simp [nextPair, h]
    rw [hn]
  · decide

/-- C9 witness: the loop stopped on a leading '=' with pairs already
collected. -/
theorem empty_name_truncates_w :
    parseLoop ("=x".toList) 3 [("a".toList, "1".toList)] =
      (3, [("a".toList, "1".toList)]) :=
  empty_name_truncates.1 "=x".toList 3 [("a".toList, "1".toList)] (by decide)

/-- C4: a token that is a bare name with no '=' is added as
(name, "true"), or as (name without the prefix, "false") when the name
begins with the case-insensitive prefix "no"; parsing
"landscape nocollate" yields (landscape,"true") and (collate,"false"). -/
theorem boolean_shorthand :
    (∀ (s : Str) (n : Int) (opts : List Opt) (name rest : Str),
        nameSpan s = (name, rest) → ¬ name = [] →
        ¬ ((rest.dropWhile cIsSpace).head? = some '=') →
        parseLoop s n opts =
          parseLoop (rest.dropWhile cIsSpace)
            (addBody true (if isNoName name then name.drop 2 else name)
              (if isNoName name then "false".toList else "true".toList) n opts).1
            (addBody true (if isNoName name then name.drop 2 else name)
              (if isNoName name then "false".toList else "true".toList) n opts).2) ∧
    cupsParseOptions (some ("landscape nocollate".toList)) 0 (some []) =
      (2, some [("landscape".toList, "true".toList),
        ("collate".toList, "false".toList)]) := by
  constructor
  · intro s n opts name rest hspan hname hne
    have h1 : (nameSpan s).1 = name := by rw [hspan]
    have h2 : (nameSpan s).2 = rest := by rw [hspan]
    rw [parseLoop_step]
    by_cases hno : isNoName name = true
    · have hstep : nextPair s =
          some ((name.drop 2, "false".toList), rest.dropWhile cIsSpace) := by
        simp only [nextPair, h1, h2]
        rw [if_neg hname, if_neg hne, if_pos hno]
      rw [hstep]
      simp [hno]
    · have hno2 : isNoName name = false := by simpa using hno
      have hstep : nextPair s =
          some ((name, "true".toList), rest.dropWhile cIsSpace) := by
        simp only [nextPair, h1, h2]
        rw [if_neg hname, if_neg hne, if_neg hno]
      rw [hstep]
      simp [hno2]
  · decide

/-- C4 witness: the boolean-shorthand step evaluated on the token
"nocollate". -/
theorem boolean_shorthand_w :
    parseLoop ("nocollate".toList) 0 [] =
      (1, [("collate".toList, "false".toList)]) := by
  rw [boolean_shorthand.1 "nocollate".toList 0 [] "nocollate".toList []
    (by decide) (by decide) (by decide)]
  decide

/-- C6: a quoted value is everything between the opening quote and the
matching closing quote, every backslash immediately followed by a
character collapsed to that character, and parsing resumes after the
closing quote; parsing the argument with value "a \"b\" c" stores
a "b" c. -/
theorem quoted_value_escapes :
    (∀ (q : Char) (body tail : Str), (q = '\'' ∨ q = '"') →
        cleanBody q body = true →
        parseValue (q :: (body ++ q :: tail)) = (collapse body, tail)) ∧
    cupsParseOptions (some ("name=\"a \\\"b\\\" c\"".toList)) 0 (some []) =
      (1, some [("name".toList, "a \"b\" c".toList)]) := by
  constructor
  · intro q body tail hq hcb
    simp only [parseValue]
    rw [if_pos hq]
    rw [quotedScan_clean q tail body hcb]
    rfl
  · decide

/-- C6 witness: the quoted-value scan evaluated on the body of the
example, escapes collapsed and quotes stripped. -/
theorem quoted_value_escapes_w :
    parseValue ('"' :: ("a \\\"b\\\" c".toList ++ '"' :: [])) =
      (collapse ("a \\\"b\\\" c".toList), []) :=
  quoted_value_escapes.1 '"' ("a \\\"b\\\" c".toList) [] (Or.inr rfl) (by decide)

/-- C8: a quoted value that is never terminated before the end of the
input runs to the end of the string, with escapes collapsed, and the
pair is still added without any error: parsing name="abc yields the
value abc. -/
theorem unterminated_quote_tolerant :
    (∀ (q : Char) (s : Str), (q = '\'' ∨ q = '"') → noCloseQuote q s = true →
        parseValue (q :: s) = (collapse s, [])) ∧
    cupsParseOptions (some ("name=\"abc".toList)) 0 (some []) =
      (1, some [("name".toList, "abc".toList)]) := by
  constructor
  · intro q s hq hnc
    simp only [parseValue]
    rw [if_pos hq]
    rw [quotedScan_noClose q s hnc]
    rfl
  · decide

/-- C8 witness: the unterminated-quote scan evaluated on "abc". -/
theorem unterminated_quote_tolerant_w :
    parseValue ('"' :: "abc".toList) = (collapse ("abc".toList), []) :=
  unterminated_quote_tolerant.1 '"' ("abc".toList) (Or.inr rfl) (by decide)

/-- C10: parsing an argument consisting of the single bare token "no"
in any letter case leaves the store's count and entries unchanged: the
"no" prefix is stripped leaving an empty name, which cupsAddOption
silently rejects. -/
theorem bare_no_token_noop (s : Str) (n : Int) (opts : List Opt)
    (hs : s = "no".toList ∨ s = "No".toList ∨ s = "nO".toList ∨ s = "NO".toList)
    (hn : 0 ≤ n) :
    cupsParseOptions (some s) n (some opts) = (n, some opts) := by
  have hn2 : ¬ n < 0 := by omega
  rcases hs with rfl | rfl | rfl | rfl
  · simp only [cupsParseOptions]
    rw [if_neg hn2]
    rw [parseLoop_noop_token
      (show nextPair (("no".toList).dropWhile cIsSpace) =
        some (([], "false".toList), []) from by decide) n opts]
  · simp only [cupsParseOptions]
    rw [if_neg hn2]
    rw [parseLoop_noop_token
      (show nextPair (("No".toList).dropWhile cIsSpace) =
        some (([], "false".toList), []) from by decide) n opts]
  · simp only [cupsParseOptions]
    rw [if_neg hn2]
    rw [parseLoop_noop_token
      (show nextPair (("nO".toList).dropWhile cIsSpace) =
        some (([], "false".toList), []) from by decide) n opts]
  · simp only [cupsParseOptions]
    rw [if_neg hn2]
    rw [parseLoop_noop_token
      (show nextPair (("NO".toList).dropWhile cIsSpace) =
        some (([], "false".toList), []) from by decide) n opts]

/-- C10 witness: parsing "No" into a non-empty store changes
nothing. -/
theorem bare_no_token_noop_w :
    cupsParseOptions (some ("No".toList)) 2 (some [(['x'], ['1'])]) =
      (2, some [(['x'], ['1'])]) :=
  bare_no_token_noop "No".toList 2 [(['x'], ['1'])] (by decide) (by decide)

end CupsOptions
